import Mathlib

/-!
# Verification of the `char-lm-lab` character tokenizer

A shallow embedding of `src/tokenizer.py` (class `CharTokenizer`) and proofs
about it.  Python dictionaries are modelled as insertion-ordered association
lists with unique keys (`dget?` is `d[k]` / `d.get(k)`, `dinsert` is
`d[k] = v`).  Python `int` is `Int`; character/string data is `Char`/`String`.
File input/output and JSON parsing are the external collaborators: `save`
produces the payload that would be serialized, and `load` consumes the fields
of the parsed JSON object.
-/

namespace CharLab

/-- `d.get(k)` / `d[k]` on a Python dict modelled as an association list:
the first entry with key `k`, if any. -/
def dget? {α β : Type} [DecidableEq α] (d : List (α × β)) (k : α) : Option β :=
  (d.find? (fun p => decide (p.1 = k))).map (fun p => p.2)

/-- `d[k] = v` on a Python dict: update the value in place when the key is
present (keeping its position), otherwise append the new entry at the end. -/
def dinsert {α β : Type} [DecidableEq α] (d : List (α × β)) (k : α) (v : β) :
    List (α × β) :=
  if k ∈ d.map Prod.fst then d.map (fun p => if p.1 = k then (k, v) else p)
  else d ++ [(k, v)]

/-- A JSON value, as decoded by `json.load`.  JSON numbers are modelled as
integers (the only numbers the v1 tokenizer format uses). -/
inductive JVal where
  | null
  | bool (b : Bool)
  | int (n : Int)
  | str (s : String)
  | arr (elems : List JVal)
  | obj (fields : List (String × JVal))

/-- The Python exceptions the tokenizer raises.  `keyErrorStr`/`keyErrorInt`
are both Python `KeyError`, carrying the offending key as their argument
(a string key of `stoi` for `encode`, an integer key of `itos` for `decode`). -/
inductive TokError where
  | valueError (msg : String)
  | runtimeError (msg : String)
  | typeError (msg : String)
  | keyErrorStr (key : String)
  | keyErrorInt (key : Int)
deriving DecidableEq

/-- The mutable state of a `CharTokenizer` instance
(`tokenizer.py` lines 8-13). -/
structure CharTokenizer where
  stoi : List (String × Int)
  itos : List (Int × String)
  pad_id : Option Int
  unk_id : Option Int
  vocab_size : Nat
deriving DecidableEq

/-- `CharTokenizer.__init__`: empty vocabularies, no specials. -/
def CharTokenizer.init : CharTokenizer := ⟨[], [], none, none, 0⟩

/-- `is_fitted`: `bool(self.stoi) and bool(self.itos)`. -/
def CharTokenizer.is_fitted (t : CharTokenizer) : Bool :=
  !t.stoi.isEmpty && !t.itos.isEmpty

def alreadyFittedMsg : String :=
  "Tokenizer is already fitted. Please create a new instance to fit again."

def emptyVocabMsg : String :=
  "No characters meet the frequency threshold; cannot build vocab."

def inconsistentFitMsg : String := "Internal mapping inconsistency after fit()."

def notFittedMsg : String := "Tokenizer not fitted. Call fit(...) first."

def notFittedSaveMsg : String := "Tokenizer not fitted. Call fit(...) before save()."

def badStoiMsg : String := "Invalid tokenizer file: missing or bad stoi."

def missingIdsMsg : String := "Invalid tokenizer file: missing pad_id/unk_id."

def inconsistentLoadMsg : String := "Loaded tokenizer has inconsistent stoi/itos."

/-- The distinct characters of `cs` in order of first occurrence: the key
order of `collections.Counter(corpus)`, whose iteration order is insertion
order. -/
def firstOccur (cs : List Char) : List Char :=
  cs.foldl (fun acc c => if c ∈ acc then acc else acc ++ [c]) []

/-- `Counter(corpus).items()`: each distinct character paired with its
number of occurrences, in first-occurrence order. -/
def counterItems (cs : List Char) : List (Char × Nat) :=
  (firstOccur cs).map (fun c => (c, cs.count c))

/-- The comparison underlying `items.sort(key=lambda x: (-x[1], x[0]))`:
`a` may precede `b` iff `a` has the larger count, or equal counts and a
code-point-smaller (or equal) character. -/
def itemLe (a b : Char × Nat) : Bool :=
  b.2 < a.2 || (a.2 == b.2 && a.1 ≤ b.1)

/-- Insert `x` into a list sorted by `itemLe`, before the first element it
may precede. -/
def insertSorted (x : Char × Nat) : List (Char × Nat) → List (Char × Nat)
  | [] => [x]
  | y :: ys => if itemLe x y then x :: y :: ys else y :: insertSorted x ys

/-- `items.sort(key=lambda x: (-x[1], x[0]))`.  Python's sort is a stable
mergesort; the sort key is injective on the distinct characters produced by
`counterItems`, so the sorted order is unique among permutations and an
insertion sort over the same total order models it exactly (`sortItems_perm`
and `sortItems_pairwise` below establish permutation and sortedness). -/
def sortItems : List (Char × Nat) → List (Char × Nat)
  | [] => []
  | x :: xs => insertSorted x (sortItems xs)

/-- The loop of `fit` lines 61-64: for each sorted item, if its character is
not yet a key of `stoi`, bind it to the next id. -/
def addChars (stoi : List (String × Int)) (idx : Int) :
    List (Char × Nat) → List (String × Int)
  | [] => stoi
  | (ch, _) :: rest =>
    if String.singleton ch ∈ stoi.map Prod.fst then addChars stoi idx rest
    else addChars (stoi ++ [(String.singleton ch, idx)]) (idx + 1) rest

/-- The dict comprehension building the inverse mapping
(lines 65 and 149): iterate the entries of `stoi` in order, inserting
`(id, string)`; a repeated id overwrites the earlier string. -/
def invert (stoi : List (String × Int)) : List (Int × String) :=
  stoi.foldl (fun acc p => dinsert acc p.2 p.1) []

/-- The sanity check of lines 69 and 153:
`any(itos[stoi[s]] != s for s in stoi)`.  The inner lookup `stoi[s]` with `s`
a key of `stoi` always succeeds, so the unreachable `none` branch contributes
`false`. -/
def invCheckFails (stoi : List (String × Int)) (itos : List (Int × String)) :
    Bool :=
  stoi.any (fun p =>
    match dget? stoi p.1 with
    | some i => decide (dget? itos i ≠ some p.1)
    | none => false)

/-- `CharTokenizer.fit` (lines 18-70) on an inline-text corpus.  Resolution
of file-path corpus sources (lines 22-38) is the external file-system
collaborator; `corpus` is the resolved corpus string. -/
def CharTokenizer.fit (t : CharTokenizer) (corpus : String)
    (include_specials : Bool) (min_freq : Nat) :
    Except TokError CharTokenizer :=
  if t.is_fitted then .error (.valueError alreadyFittedMsg)
  else
    let items := (counterItems corpus.data).filter (fun p => min_freq ≤ p.2)
    if items.isEmpty && !include_specials then .error (.valueError emptyVocabMsg)
    else
      let base : List (String × Int) :=
        if include_specials then [("<PAD>", 0), ("<UNK>", 1)] else []
      let stoi := addChars base (if include_specials then 2 else 0)
        (sortItems items)
      let itos := invert stoi
      if stoi.isEmpty || itos.isEmpty || invCheckFails stoi itos then
        .error (.valueError inconsistentFitMsg)
      else
        .ok ⟨stoi, itos,
          (if include_specials then some 0 else none),
          (if include_specials then some 1 else none),
          stoi.length⟩

/-- The strict list comprehension `[self.stoi[ch] for ch in text]`: the
first character absent from `stoi` raises `KeyError(ch)`. -/
def encodeStrict (stoi : List (String × Int)) :
    List Char → Except TokError (List Int)
  | [] => .ok []
  | ch :: rest =>
    match dget? stoi (String.singleton ch) with
    | some i =>
      match encodeStrict stoi rest with
      | .ok tl => .ok (i :: tl)
      | .error e => .error e
    | none => .error (.keyErrorStr (String.singleton ch))

/-- `CharTokenizer.encode` (lines 72-79). -/
def CharTokenizer.encode (t : CharTokenizer) (text : String) (strict : Bool) :
    Except TokError (List Int) :=
  if !t.is_fitted then .error (.runtimeError notFittedMsg)
  else if strict then encodeStrict t.stoi text.data
  else
    match t.unk_id with
    | none => encodeStrict t.stoi text.data
    | some u =>
      .ok (text.data.map (fun ch => (dget? t.stoi (String.singleton ch)).getD u))

/-- `''.join(self.itos[i] for i in token_ids)`: concatenate the strings of
the ids in order; the first id absent from `itos` raises `KeyError(i)`. -/
def joinItos (itos : List (Int × String)) :
    List Int → Except TokError String
  | [] => .ok ""
  | i :: rest =>
    match dget? itos i with
    | some s =>
      match joinItos itos rest with
      | .ok r => .ok (s ++ r)
      | .error e => .error e
    | none => .error (.keyErrorInt i)

/-- `CharTokenizer.decode` (lines 81-86). -/
def CharTokenizer.decode (t : CharTokenizer) (ids : List Int)
    (skip_specials : Bool) : Except TokError String :=
  if !t.is_fitted then .error (.runtimeError notFittedMsg)
  else
    match skip_specials, t.pad_id, t.unk_id with
    | true, some p, some u =>
      joinItos t.itos (ids.filter (fun i => !(i == p) && !(i == u)))
    | _, _, _ => joinItos t.itos ids

/-- A Python value serialized into the `pad_id`/`unk_id` JSON fields:
`None` becomes `null`, an `int` stays itself. -/
def optJ : Option Int → JVal
  | none => .null
  | some n => .int n

/-- `CharTokenizer.save` (lines 93-125): the payload dict of lines 101-106
that would be serialized.  Directory creation, the temporary file and the
atomic rename (lines 108-125) are the external file-system collaborator.
(Note: the source module never imports `tempfile`/`json`, so the code as
shipped raises `NameError` before reaching the write; the payload here is
the one lines 101-106 construct.) -/
def CharTokenizer.save (t : CharTokenizer) :
    Except TokError (List (String × JVal)) :=
  if !t.is_fitted then .error (.runtimeError notFittedSaveMsg)
  else
    .ok [("version", .str "char-tokenizer.v1"),
         ("stoi", .obj (t.stoi.map (fun p => (p.1, JVal.int p.2)))),
         ("pad_id", optJ t.pad_id),
         ("unk_id", optJ t.unk_id)]

/-- Python `int(x)` applied to a decoded JSON value: an `int` stays itself,
a `bool` becomes 0/1, a decimal string parses (else `ValueError`), and
`null`/arrays/objects raise `TypeError`. -/
def pyIntE : JVal → Except TokError Int
  | .int n => .ok n
  | .bool b => .ok (cond b 1 0)
  | .str s =>
    match s.toInt? with
    | some n => .ok n
    | none => .error (.valueError "invalid literal for int() with base 10")
  | .null => .error (.typeError "int() argument must not be NoneType")
  | .arr _ => .error (.typeError "int() argument must not be list")
  | .obj _ => .error (.typeError "int() argument must not be dict")

/-- The dict comprehension `{str(s): int(i) for s, i in data["stoi"].items()}`
with accumulator `acc`: convert each value with `int`, failing at the first
bad one, inserting pairs in order (JSON object keys are already strings, so
`str(s)` is `s`). -/
def convStoiGo (acc : List (String × Int)) :
    List (String × JVal) → Except TokError (List (String × Int))
  | [] => .ok acc
  | (s, v) :: rest =>
    match pyIntE v with
    | .ok n => convStoiGo (dinsert acc s n) rest
    | .error e => .error e

/-- The full `stoi` rebuild of line 144. -/
def convStoi (fields : List (String × JVal)) :
    Except TokError (List (String × Int)) :=
  convStoiGo [] fields

/-- The `pad_id`/`unk_id` extraction of lines 145-146
(`data["pad_id"] if data["pad_id"] is not None else None`), restricted to
the integer-or-null values the v1 format uses: `none` marks a value outside
this typed model (a non-integer, non-null JSON value, which Python would
store as-is in the dynamically typed field). -/
def loadPad : JVal → Option (Option Int)
  | .null => some none
  | .int n => some (some n)
  | _ => none

/-- `CharTokenizer.load` (lines 127-154) applied to the fields of the parsed
JSON object.  The result is the pair of the instance state after the call
and the exception raised, if any — `load` mutates `self` at lines 144-150
and only then runs the inversion check of line 153, so a failure there
leaves the newly assigned state in place.  The outer `none` marks input
outside the typed model (see `loadPad`).  The file-existence check, file
reading and JSON parsing of lines 132-136 are the external collaborator.
(As with `save`, the shipped module never imports `json`, so the source
raises `NameError` at line 136 before any of this runs.) -/
def CharTokenizer.load (t : CharTokenizer) (data : List (String × JVal)) :
    Option (CharTokenizer × Option TokError) :=
  match dget? data "stoi" with
  | some (.obj fields) =>
    match dget? data "pad_id", dget? data "unk_id" with
    | some pv, some uv =>
      (match convStoi fields with
       | .error e => some (t, some e)
       | .ok newStoi =>
         match loadPad pv, loadPad uv with
         | some pad, some unk =>
           let newItos := invert newStoi
           let t' : CharTokenizer :=
             ⟨newStoi, newItos, pad, unk, newStoi.length⟩
           if invCheckFails newStoi newItos then
             some (t', some (.valueError inconsistentLoadMsg))
           else some (t', none)
         | _, _ => none)
    | _, _ => some (t, some (.valueError missingIdsMsg))
  | _ => some (t, some (.valueError badStoiMsg))

/-- `CharTokenizer.from_file` (lines 156-163): a fresh instance, loaded. -/
def CharTokenizer.from_file (data : List (String × JVal)) :
    Option (CharTokenizer × Option TokError) :=
  CharTokenizer.init.load data

/-- Consecutive id assignment: `idsFrom base [c₀, c₁, …]` is
`[(c₀, base), (c₁, base+1), …]`, describing what the `fit` loop produces. -/
def idsFrom (base : Int) : List Char → List (String × Int)
  | [] => []
  | c :: cs => (String.singleton c, base) :: idsFrom (base + 1) cs

/-! ## Association-list (Python dict) lemmas -/

theorem dget?_nil {α β : Type} [DecidableEq α] (k : α) :
    dget? ([] : List (α × β)) k = none := rfl

theorem dget?_cons {α β : Type} [DecidableEq α] (a : α) (b : β)
    (d : List (α × β)) (k : α) :
    dget? ((a, b) :: d) k = if a = k then some b else dget? d k := by
  by_cases h : a = k <;> simp [dget?, List.find?_cons, h]

theorem dget?_eq_some_mem {α β : Type} [DecidableEq α] {d : List (α × β)}
    {k : α} {v : β} (h : dget? d k = some v) : (k, v) ∈ d := by
  unfold dget? at h
  cases hf : d.find? (fun p => decide (p.1 = k)) with
  | none => simp [hf] at h
  | some p =>
    have hm := List.mem_of_find?_eq_some hf
    have hp := List.find?_some hf
    simp [hf] at h
    have hk : p.1 = k := by simpa using hp
    have : p = (k, v) := by
      cases p
      simp_all
    simpa [this] using hm

theorem dget?_eq_some_of_mem {α β : Type} [DecidableEq α] {d : List (α × β)}
    {k : α} {v : β} (hn : (d.map Prod.fst).Nodup) (hm : (k, v) ∈ d) :
    dget? d k = some v := by
  induction d with
  | nil => simp at hm
  | cons p d ih =>
    obtain ⟨a, b⟩ := p
    simp only [List.map_cons, List.nodup_cons] at hn
    rcases List.mem_cons.mp hm with h | h
    · injection h with h1 h2
      subst h1
      subst h2
      simp [dget?_cons]
    · have hk : a ≠ k := fun hak => hn.1 (by
        rw [hak]
        exact List.mem_map_of_mem Prod.fst h)
      rw [dget?_cons, if_neg hk]
      exact ih hn.2 h

theorem dget?_isSome_iff {α β : Type} [DecidableEq α] (d : List (α × β))
    (k : α) : (dget? d k).isSome = true ↔ k ∈ d.map Prod.fst := by
  induction d with
  | nil => simp [dget?]
  | cons p d ih =>
    obtain ⟨a, b⟩ := p
    by_cases h : a = k
    · subst h
      simp [dget?_cons]
    · have h' : k ≠ a := fun hk => h hk.symm
      rw [dget?_cons, if_neg h, ih]
      simp [List.map_cons, List.mem_cons, h']

theorem dget?_append {α β : Type} [DecidableEq α] (d₁ d₂ : List (α × β))
    (k : α) : dget? (d₁ ++ d₂) k = (dget? d₁ k).or (dget? d₂ k) := by
  unfold dget?
  rw [List.find?_append]
  cases List.find? (fun p => decide (p.1 = k)) d₁ <;> simp

theorem dinsert_of_not_mem {α β : Type} [DecidableEq α] {d : List (α × β)}
    {k : α} (v : β) (h : k ∉ d.map Prod.fst) : dinsert d k v = d ++ [(k, v)] := by
  simp [dinsert, h]

theorem keys_dinsert {α β : Type} [DecidableEq α] (d : List (α × β)) (k : α)
    (v : β) :
    (dinsert d k v).map Prod.fst =
      if k ∈ d.map Prod.fst then d.map Prod.fst else d.map Prod.fst ++ [k] := by
  unfold dinsert
  split
  · simp only [if_true, List.map_map]
    refine List.map_congr_left ?_
    intro p _
    by_cases h : p.1 = k <;> simp [h]
  · simp

theorem nodup_keys_dinsert {α β : Type} [DecidableEq α] {d : List (α × β)}
    {k : α} {v : β} (h : (d.map Prod.fst).Nodup) :
    ((dinsert d k v).map Prod.fst).Nodup := by
  rw [keys_dinsert]
  split
  · exact h
  · simp_all [List.nodup_append]

/-! ## Sorting lemmas: `sortItems` models `items.sort(key=(-count, char))` -/

theorem perm_insertSorted (x : Char × Nat) (l : List (Char × Nat)) :
    (insertSorted x l).Perm (x :: l) := by
  induction l with
  | nil => exact List.Perm.refl _
  | cons y ys ih =>
    rw [insertSorted]
    split
    · exact List.Perm.refl _
    · exact (ih.cons y).trans (List.Perm.swap x y ys)

theorem mem_insertSorted {x a : Char × Nat} {l : List (Char × Nat)} :
    a ∈ insertSorted x l ↔ a = x ∨ a ∈ l := by
  rw [(perm_insertSorted x l).mem_iff]
  simp

theorem sortItems_perm (l : List (Char × Nat)) : (sortItems l).Perm l := by
  induction l with
  | nil => rfl
  | cons x xs ih => exact (perm_insertSorted x (sortItems xs)).trans (ih.cons x)

theorem itemLe_total (a b : Char × Nat) :
    (itemLe a b || itemLe b a) = true := by
  unfold itemLe
  rcases Nat.lt_trichotomy a.2 b.2 with h | h | h
  · simp [h]
  · rcases le_total a.1 b.1 with hc | hc <;> simp [h, hc]
  · simp [h]

theorem itemLe_trans {a b c : Char × Nat} (hab : itemLe a b = true)
    (hbc : itemLe b c = true) : itemLe a c = true := by
  unfold itemLe at *
  simp only [Bool.or_eq_true, Bool.and_eq_true, beq_iff_eq, decide_eq_true_eq]
    at hab hbc ⊢
  rcases hab with h1 | ⟨h1, h1c⟩ <;> rcases hbc with h2 | ⟨h2, h2c⟩
  · exact Or.inl (h2.trans h1)
  · exact Or.inl (h2 ▸ h1)
  · exact Or.inl (h1 ▸ h2)
  · exact Or.inr ⟨h1.trans h2, le_trans h1c h2c⟩

theorem pairwise_insertSorted (x : Char × Nat) {l : List (Char × Nat)}
    (hl : l.Pairwise (fun a b => itemLe a b = true)) :
    (insertSorted x l).Pairwise (fun a b => itemLe a b = true) := by
  induction l with
  | nil => simp [insertSorted]
  | cons y ys ih =>
    rw [insertSorted]
    rcases List.pairwise_cons.mp hl with ⟨hy, hys⟩
    split
    · rename_i hxy
      refine List.pairwise_cons.mpr ⟨?_, hl⟩
      intro b hb
      rcases List.mem_cons.mp hb with rfl | hb
      · exact hxy
      · exact itemLe_trans hxy (hy b hb)
    · rename_i hxy
      refine List.pairwise_cons.mpr ⟨?_, ih hys⟩
      intro b hb
      rcases mem_insertSorted.mp hb with heq | hb
      · subst heq
        have htot := itemLe_total b y
        simp only [hxy, Bool.false_or] at htot
        exact htot
      · exact hy b hb

theorem sortItems_sorted (l : List (Char × Nat)) :
    (sortItems l).Pairwise (fun a b => itemLe a b = true) := by
  induction l with
  | nil => simp [sortItems]
  | cons x xs ih => exact pairwise_insertSorted x ih

theorem sortItems_pairwise_strict {l : List (Char × Nat)}
    (h : (l.map Prod.fst).Nodup) :
    (sortItems l).Pairwise
      (fun a b => b.2 < a.2 ∨ (a.2 = b.2 ∧ a.1 < b.1)) := by
  have hperm : ((sortItems l).map Prod.fst).Perm (l.map Prod.fst) :=
    (sortItems_perm l).map Prod.fst
  have hnd : ((sortItems l).map Prod.fst).Nodup := hperm.symm.nodup h
  have hne : (sortItems l).Pairwise (fun a b => a.1 ≠ b.1) :=
    List.pairwise_map.mp hnd
  refine ((sortItems_sorted l).and hne).imp ?_
  rintro a b ⟨hle, hfst⟩
  unfold itemLe at hle
  simp only [Bool.or_eq_true, Bool.and_eq_true, beq_iff_eq,
    decide_eq_true_eq] at hle
  rcases hle with h1 | ⟨h1, h2⟩
  · exact Or.inl h1
  · exact Or.inr ⟨h1, lt_of_le_of_ne h2 hfst⟩

/-! ## Characters, keys and consecutive ids -/

theorem singleton_inj {a b : Char}
    (h : String.singleton a = String.singleton b) : a = b := by
  have := congrArg String.data h
  simpa using this

theorem singleton_ne_pad (c : Char) : String.singleton c ≠ "<PAD>" := by
  intro h
  have := congrArg String.length h
  rw [String.length_singleton] at this
  exact absurd this (by decide)

theorem singleton_ne_unk (c : Char) : String.singleton c ≠ "<UNK>" := by
  intro h
  have := congrArg String.length h
  rw [String.length_singleton] at this
  exact absurd this (by decide)

theorem firstOccur_nodup (cs : List Char) : (firstOccur cs).Nodup := by
  suffices h : ∀ acc : List Char, acc.Nodup →
      (cs.foldl (fun acc c => if c ∈ acc then acc else acc ++ [c]) acc).Nodup by
    exact h [] List.nodup_nil
  induction cs with
  | nil => intro acc h; simpa using h
  | cons c cs ih =>
    intro acc h
    rw [List.foldl_cons]
    by_cases hc : c ∈ acc
    · rw [if_pos hc]
      exact ih acc h
    · rw [if_neg hc]
      refine ih _ ?_
      simp [List.nodup_append, h, hc]

theorem counterItems_keys_nodup (cs : List Char) :
    ((counterItems cs).map Prod.fst).Nodup := by
  unfold counterItems
  rw [List.map_map]
  have heq : (Prod.fst ∘ fun c => (c, cs.count c)) = id := rfl
  rw [heq, List.map_id]
  exact firstOccur_nodup cs

theorem filter_keys_nodup {p : Char × Nat → Bool} {l : List (Char × Nat)}
    (h : (l.map Prod.fst).Nodup) : ((l.filter p).map Prod.fst).Nodup :=
  ((List.filter_sublist l).map Prod.fst).nodup h

theorem idsFrom_keys (base : Int) (cs : List Char) :
    (idsFrom base cs).map Prod.fst = cs.map String.singleton := by
  induction cs generalizing base with
  | nil => simp [idsFrom]
  | cons c cs ih => simp [idsFrom, ih]

theorem idsFrom_val_ge {base : Int} {cs : List Char} {s : String} {i : Int}
    (h : (s, i) ∈ idsFrom base cs) : base ≤ i := by
  induction cs generalizing base with
  | nil => simp [idsFrom] at h
  | cons c cs ih =>
    rw [idsFrom] at h
    rcases List.mem_cons.mp h with heq | hm
    · injection heq with h1 h2
      omega
    · have := ih hm
      omega

theorem idsFrom_vals_nodup (base : Int) (cs : List Char) :
    ((idsFrom base cs).map Prod.snd).Nodup := by
  induction cs generalizing base with
  | nil => simp [idsFrom]
  | cons c cs ih =>
    simp only [idsFrom, List.map_cons, List.nodup_cons]
    refine ⟨?_, ih (base + 1)⟩
    intro hmem
    obtain ⟨p, hp, hsnd⟩ := List.mem_map.mp hmem
    have hge : base + 1 ≤ p.2 := idsFrom_val_ge (s := p.1) (by
      rw [show (p.1, p.2) = p from rfl]
      exact hp)
    omega

theorem mem_idsFrom {base : Int} {cs : List Char} {s : String} {i : Int}
    (h : (s, i) ∈ idsFrom base cs) : ∃ c ∈ cs, s = String.singleton c := by
  induction cs generalizing base with
  | nil => simp [idsFrom] at h
  | cons c cs ih =>
    rw [idsFrom] at h
    rcases List.mem_cons.mp h with heq | hm
    · injection heq with h1 h2
      exact ⟨c, List.mem_cons_self c cs, h1⟩
    · obtain ⟨c', hc', hs⟩ := ih hm
      exact ⟨c', List.mem_cons_of_mem c hc', hs⟩

theorem addChars_eq_append {stoi0 : List (String × Int)} {idx : Int}
    {l : List (Char × Nat)} (hnd : (l.map Prod.fst).Nodup)
    (hdisj : ∀ p ∈ l, String.singleton p.1 ∉ stoi0.map Prod.fst) :
    addChars stoi0 idx l = stoi0 ++ idsFrom idx (l.map Prod.fst) := by
  induction l generalizing stoi0 idx with
  | nil => simp [addChars, idsFrom]
  | cons p l ih =>
    obtain ⟨c, cnt⟩ := p
    simp only [List.map_cons, List.nodup_cons] at hnd
    rw [addChars, if_neg (hdisj (c, cnt) (List.mem_cons_self _ _))]
    rw [ih hnd.2 ?_]
    · simp [idsFrom, List.append_assoc]
    · intro q hq
      simp only [List.map_append, List.map_cons, List.map_nil,
        List.mem_append, List.mem_singleton, not_or]
      refine ⟨hdisj q (List.mem_cons_of_mem _ hq), ?_⟩
      intro hqc
      have : q.1 = c := singleton_inj hqc
      exact hnd.1 (this ▸ List.mem_map_of_mem Prod.fst hq)

/-! ## Dissecting a successful `fit` -/

/-- The filtered character counts `fit` works with (line 42). -/
def fitItems (corpus : String) (min_freq : Nat) : List (Char × Nat) :=
  (counterItems corpus.data).filter (fun p => min_freq ≤ p.2)

/-- The `stoi` a successful `fit` constructs. -/
def fitStoi (corpus : String) (include_specials : Bool) (min_freq : Nat) :
    List (String × Int) :=
  addChars (if include_specials then [("<PAD>", 0), ("<UNK>", 1)] else [])
    (if include_specials then 2 else 0)
    (sortItems (fitItems corpus min_freq))

theorem fit_ok_parts {t0 t : CharTokenizer} {corpus : String} {sp : Bool}
    {mf : Nat} (h : t0.fit corpus sp mf = .ok t) :
    t = ⟨fitStoi corpus sp mf, invert (fitStoi corpus sp mf),
         (if sp then some 0 else none), (if sp then some 1 else none),
         (fitStoi corpus sp mf).length⟩ ∧
    invCheckFails (fitStoi corpus sp mf) (invert (fitStoi corpus sp mf)) = false ∧
    (fitStoi corpus sp mf).isEmpty = false ∧
    (invert (fitStoi corpus sp mf)).isEmpty = false := by
  unfold CharTokenizer.fit at h
  split at h
  · exact Except.noConfusion h
  · dsimp only at h
    split at h
    · exact Except.noConfusion h
    · rw [fitStoi, fitItems]
      by_cases hsp : sp = true
      · subst hsp
        simp only [if_true] at h ⊢
        split at h
        · exact Except.noConfusion h
        · rename_i hcheck
          injection h with h
          subst h
          simp only [Bool.or_eq_true, not_or] at hcheck
          refine ⟨rfl, ?_, ?_, ?_⟩
          · simpa using hcheck.2
          · simpa using hcheck.1.1
          · simpa using hcheck.1.2
      · replace hsp : sp = false := Bool.not_eq_true sp ▸ hsp
        subst hsp
        simp only [Bool.false_eq_true, if_false] at h ⊢
        split at h
        · exact Except.noConfusion h
        · rename_i hcheck
          injection h with h
          subst h
          simp only [Bool.or_eq_true, not_or] at hcheck
          refine ⟨rfl, ?_, ?_, ?_⟩
          · simpa using hcheck.2
          · simpa using hcheck.1.1
          · simpa using hcheck.1.2

theorem sortItems_fitItems_keys_nodup (corpus : String) (mf : Nat) :
    ((sortItems (fitItems corpus mf)).map Prod.fst).Nodup :=
  ((sortItems_perm (fitItems corpus mf)).map Prod.fst).symm.nodup
    (filter_keys_nodup (counterItems_keys_nodup corpus.data))

theorem fitStoi_eq_append (corpus : String) (sp : Bool) (mf : Nat) :
    fitStoi corpus sp mf =
      (if sp then [("<PAD>", 0), ("<UNK>", 1)] else []) ++
        idsFrom (if sp then 2 else 0)
          ((sortItems (fitItems corpus mf)).map Prod.fst) := by
  unfold fitStoi
  refine addChars_eq_append (sortItems_fitItems_keys_nodup corpus mf) ?_
  intro p _
  split
  · intro hmem
    simp only [List.map_cons, List.map_nil, List.mem_cons,
      List.mem_singleton] at hmem
    rcases hmem with h | h | h
    · exact singleton_ne_pad p.1 h
    · exact singleton_ne_unk p.1 h
    · simp at h
  · simp

theorem fitStoi_keys_nodup (corpus : String) (sp : Bool) (mf : Nat) :
    ((fitStoi corpus sp mf).map Prod.fst).Nodup := by
  rw [fitStoi_eq_append, List.map_append, idsFrom_keys]
  have hnd := sortItems_fitItems_keys_nodup corpus mf
  have hsing : (((sortItems (fitItems corpus mf)).map Prod.fst).map
      String.singleton).Nodup := hnd.map (fun _ _ h => singleton_inj h)
  rw [List.nodup_append]
  refine ⟨?_, hsing, ?_⟩
  · split <;> simp [singleton_ne_pad, singleton_ne_unk]
  · intro s hs hmem
    obtain ⟨c, _, rfl⟩ := List.mem_map.mp hmem
    revert hs
    split
    · simp only [List.map_cons, List.map_nil, List.mem_cons,
        List.mem_singleton]
      rintro (h | h | h)
      · exact singleton_ne_pad c h
      · exact singleton_ne_unk c h
      · simp at h
    · simp

theorem dget?_idsFrom_ge {base : Int} {cs : List Char} {k : String} {i : Int}
    (h : dget? (idsFrom base cs) k = some i) : base ≤ i :=
  idsFrom_val_ge (s := k) (dget?_eq_some_mem h)

/-- In `fit`'s `stoi`, any single-character key is bound to an id at or above
the first non-special id. -/
theorem fitStoi_singleton_ge {corpus : String} {sp : Bool} {mf : Nat}
    {ch : Char} {i : Int}
    (h : dget? (fitStoi corpus sp mf) (String.singleton ch) = some i) :
    (if sp then 2 else 0) ≤ i := by
  rw [fitStoi_eq_append, dget?_append] at h
  have hnone : dget? (if sp then [(("<PAD>" : String), (0 : Int)),
      ("<UNK>", 1)] else []) (String.singleton ch) = none := by
    split
    · rw [dget?_cons, if_neg (Ne.symm (singleton_ne_pad ch)),
        dget?_cons, if_neg (Ne.symm (singleton_ne_unk ch))]
      rfl
    · rfl
  rw [hnone, Option.none_or] at h
  exact dget?_idsFrom_ge h

/-! ## The inverse mapping and the bidirectional invariant -/

theorem foldl_dinsert_swap_eq (stoi : List (String × Int)) :
    ∀ acc : List (Int × String),
      (acc.map Prod.fst ++ stoi.map Prod.snd).Nodup →
      stoi.foldl (fun a p => dinsert a p.2 p.1) acc =
        acc ++ stoi.map (fun p => (p.2, p.1)) := by
  induction stoi with
  | nil => intro acc _; simp
  | cons p l ih =>
    intro acc h
    rw [List.foldl_cons]
    have hnot : p.2 ∉ acc.map Prod.fst := by
      intro hm
      rw [List.nodup_append] at h
      exact h.2.2 hm (by simp)
    rw [dinsert_of_not_mem _ hnot, ih (acc ++ [(p.2, p.1)]) ?_]
    · simp
    · simp only [List.map_append, List.map_cons, List.map_nil,
        List.append_assoc, List.nil_append, List.singleton_append]
      simpa using h

theorem invert_eq_map_swap {stoi : List (String × Int)}
    (h : (stoi.map Prod.snd).Nodup) :
    invert stoi = stoi.map (fun p => (p.2, p.1)) := by
  unfold invert
  simpa using foldl_dinsert_swap_eq stoi [] (by simpa using h)

theorem invCheck_ok_iff {stoi : List (String × Int)}
    {itos : List (Int × String)} (hn : (stoi.map Prod.fst).Nodup) :
    invCheckFails stoi itos = false ↔
      ∀ p ∈ stoi, dget? itos p.2 = some p.1 := by
  have hpt : ∀ p ∈ stoi, ((match dget? stoi p.1 with
      | some i => decide (dget? itos i ≠ some p.1)
      | none => false) = false ↔ dget? itos p.2 = some p.1) := by
    intro p hp
    rw [dget?_eq_some_of_mem hn (by rw [show (p.1, p.2) = p from rfl]; exact hp)]
    simp
  unfold invCheckFails
  rw [List.any_eq_false]
  constructor
  · intro h p hp
    exact (hpt p hp).mp (by simpa using h p hp)
  · intro h p hp
    simpa using (hpt p hp).mpr (h p hp)

theorem vals_nodup_of_invCheck {stoi : List (String × Int)}
    {itos : List (Int × String)} (hn : (stoi.map Prod.fst).Nodup)
    (hc : ∀ p ∈ stoi, dget? itos p.2 = some p.1) :
    (stoi.map Prod.snd).Nodup := by
  have hkeys : stoi.Pairwise (fun p q => p.1 ≠ q.1) := List.pairwise_map.mp hn
  refine List.pairwise_map.mpr (hkeys.imp_of_mem ?_)
  intro p q hp hq hne heq
  have h1 := hc p hp
  have h2 := hc q hq
  rw [heq, h2] at h1
  exact hne (Option.some.inj h1).symm

/-- The well-formedness invariants every reachable fitted state satisfies:
unique keys, `itos` the computed inverse of `stoi`, `vocab_size` the entry
count, and the inversion check passing. -/
def WF (t : CharTokenizer) : Prop :=
  (t.stoi.map Prod.fst).Nodup ∧ t.itos = invert t.stoi ∧
  t.vocab_size = t.stoi.length ∧ invCheckFails t.stoi t.itos = false

instance (t : CharTokenizer) : Decidable (WF t) := by
  unfold WF
  infer_instance

theorem WF_inverse {t : CharTokenizer} (h : WF t) :
    (∀ s i, dget? t.stoi s = some i → dget? t.itos i = some s) ∧
    (∀ i s, dget? t.itos i = some s → dget? t.stoi s = some i) ∧
    t.itos = t.stoi.map (fun p => (p.2, p.1)) := by
  obtain ⟨hn, hitos, hvs, hchk⟩ := h
  have hall : ∀ p ∈ t.stoi, dget? t.itos p.2 = some p.1 :=
    (invCheck_ok_iff hn).mp hchk
  have hvals : (t.stoi.map Prod.snd).Nodup := vals_nodup_of_invCheck hn hall
  have hswap : t.itos = t.stoi.map (fun p => (p.2, p.1)) :=
    hitos.trans (invert_eq_map_swap hvals)
  refine ⟨?_, ?_, hswap⟩
  · intro s i hsi
    exact hall (s, i) (dget?_eq_some_mem hsi)
  · intro i s hsi
    have hmem : (i, s) ∈ t.itos := dget?_eq_some_mem hsi
    rw [hswap] at hmem
    obtain ⟨p, hp, heq⟩ := List.mem_map.mp hmem
    injection heq with h1 h2
    have hmem2 : (s, i) ∈ t.stoi := by
      rw [← h2, ← h1, show (p.1, p.2) = p from rfl]
      exact hp
    exact dget?_eq_some_of_mem hn hmem2

theorem fit_ok_WF {t0 t : CharTokenizer} {corpus : String} {sp : Bool}
    {mf : Nat} (h : t0.fit corpus sp mf = .ok t) : WF t := by
  obtain ⟨ht, hchk, _, _⟩ := fit_ok_parts h
  subst ht
  exact ⟨fitStoi_keys_nodup corpus sp mf, rfl, rfl, hchk⟩

/-! ## Loading -/

theorem convStoiGo_ok_keys_nodup {fields : List (String × JVal)} :
    ∀ {acc res : List (String × Int)}, (acc.map Prod.fst).Nodup →
      convStoiGo acc fields = .ok res → (res.map Prod.fst).Nodup := by
  induction fields with
  | nil =>
    intro acc res h hc
    rw [convStoiGo] at hc
    injection hc with hc
    subst hc
    exact h
  | cons p rest ih =>
    intro acc res h hc
    obtain ⟨s, v⟩ := p
    rw [convStoiGo] at hc
    cases hpy : pyIntE v with
    | error e =>
      rw [hpy] at hc
      exact Except.noConfusion hc
    | ok n =>
      rw [hpy] at hc
      exact ih (nodup_keys_dinsert h) hc

theorem convStoiGo_map_int (l : List (String × Int)) :
    ∀ acc, ((acc ++ l).map Prod.fst).Nodup →
      convStoiGo acc (l.map (fun p => (p.1, JVal.int p.2))) = .ok (acc ++ l) := by
  induction l with
  | nil => intro acc h; simp [convStoiGo]
  | cons p l ih =>
    intro acc h
    obtain ⟨s, n⟩ := p
    simp only [List.map_cons]
    rw [convStoiGo]
    show convStoiGo (dinsert acc s n) (l.map (fun p => (p.1, JVal.int p.2))) = _
    have hs : s ∉ acc.map Prod.fst := by
      simp only [List.map_append, List.map_cons, List.nodup_append,
        List.nodup_cons] at h
      intro hm
      exact h.2.2 hm (by simp)
    rw [dinsert_of_not_mem n hs]
    rw [ih (acc ++ [(s, n)]) (by simpa using h)]
    simp

theorem convStoi_map_int {l : List (String × Int)}
    (h : (l.map Prod.fst).Nodup) :
    convStoi (l.map (fun p => (p.1, JVal.int p.2))) = .ok l := by
  simpa using convStoiGo_map_int l [] (by simpa using h)

theorem loadPad_optJ (o : Option Int) : loadPad (optJ o) = some o := by
  cases o <;> rfl

theorem load_ok_WF {t0 t : CharTokenizer} {data : List (String × JVal)}
    (h : t0.load data = some (t, none)) : WF t := by
  unfold CharTokenizer.load at h
  split at h
  case h_2 =>
    injection h with h
    injection h with h1 h2
    exact Option.noConfusion h2
  case h_1 fields heq =>
    split at h
    case h_2 =>
      injection h with h
      injection h with h1 h2
      exact Option.noConfusion h2
    case h_1 pv uv hpv huv =>
      split at h
      case h_1 e hconv =>
        injection h with h
        injection h with h1 h2
        exact Option.noConfusion h2
      case h_2 newStoi hconv =>
        split at h
        case h_2 => exact Option.noConfusion h
        case h_1 pad unk hpad hunk =>
          dsimp only at h
          split at h
          · injection h with h
            injection h with h1 h2
            exact Option.noConfusion h2
          · rename_i hchk
            injection h with h
            injection h with h1 h2
            have hnd : (newStoi.map Prod.fst).Nodup :=
              convStoiGo_ok_keys_nodup (by simp) hconv
            rw [← h1]
            refine ⟨hnd, rfl, rfl, ?_⟩
            simpa using hchk

/-! ## Encoding and decoding -/

theorem fit_ok_fitted {t0 t : CharTokenizer} {corpus : String} {sp : Bool}
    {mf : Nat} (h : t0.fit corpus sp mf = .ok t) : t.is_fitted = true := by
  obtain ⟨ht, _, hne, hne2⟩ := fit_ok_parts h
  subst ht
  simp only [CharTokenizer.is_fitted]
  rw [hne, hne2]
  rfl

theorem encodeStrict_forall₂ {stoi : List (String × Int)} {cs : List Char}
    {ids : List Int} (h : encodeStrict stoi cs = .ok ids) :
    List.Forall₂ (fun ch i => dget? stoi (String.singleton ch) = some i)
      cs ids := by
  induction cs generalizing ids with
  | nil =>
    rw [encodeStrict] at h
    injection h with h
    subst h
    exact List.Forall₂.nil
  | cons ch cs ih =>
    rw [encodeStrict] at h
    cases hg : dget? stoi (String.singleton ch) with
    | none => rw [hg] at h; exact Except.noConfusion h
    | some i =>
      rw [hg] at h
      cases hr : encodeStrict stoi cs with
      | error e => rw [hr] at h; exact Except.noConfusion h
      | ok tl =>
        rw [hr] at h
        injection h with h
        subst h
        exact List.Forall₂.cons hg (ih hr)

theorem encodeStrict_ok_of_mem {stoi : List (String × Int)} {cs : List Char}
    (hin : ∀ ch ∈ cs, (dget? stoi (String.singleton ch)).isSome = true) :
    ∃ ids, encodeStrict stoi cs = .ok ids := by
  induction cs with
  | nil => exact ⟨[], rfl⟩
  | cons ch cs ih =>
    obtain ⟨i, hi⟩ := Option.isSome_iff_exists.mp (hin ch (by simp))
    obtain ⟨tl, htl⟩ := ih (fun c hc => hin c (List.mem_cons_of_mem _ hc))
    exact ⟨i :: tl, by rw [encodeStrict, hi, htl]⟩

theorem map_getD_forall₂ (stoi : List (String × Int)) (u : Int)
    (cs : List Char) :
    List.Forall₂ (fun ch i => dget? stoi (String.singleton ch) = some i ∨
      (dget? stoi (String.singleton ch) = none ∧ (some u : Option Int) = some i))
      cs (cs.map (fun ch => (dget? stoi (String.singleton ch)).getD u)) := by
  induction cs with
  | nil => exact List.Forall₂.nil
  | cons ch cs ih =>
    refine List.Forall₂.cons ?_ ih
    cases hg : dget? stoi (String.singleton ch) with
    | none => exact Or.inr ⟨rfl, by simp [hg]⟩
    | some i => exact Or.inl (by simp [hg])

theorem encode_ok_forall₂ {t : CharTokenizer} {text : String} {strict : Bool}
    {ids : List Int} (h : t.encode text strict = .ok ids) :
    List.Forall₂ (fun ch i =>
      dget? t.stoi (String.singleton ch) = some i ∨
        (dget? t.stoi (String.singleton ch) = none ∧ t.unk_id = some i))
      text.data ids := by
  unfold CharTokenizer.encode at h
  split at h
  · exact Except.noConfusion h
  · split at h
    · exact (encodeStrict_forall₂ h).imp (fun _ _ hx => Or.inl hx)
    · split at h
      · exact (encodeStrict_forall₂ h).imp (fun _ _ hx => Or.inl hx)
      · rename_i u hunk
        injection h with h
        subst h
        rw [hunk]
        exact map_getD_forall₂ t.stoi u text.data

theorem forall₂_mem_right {R : Char → Int → Prop} {cs : List Char}
    {ids : List Int} (h : List.Forall₂ R cs ids) :
    ∀ i ∈ ids, ∃ ch ∈ cs, R ch i := by
  induction h with
  | nil => intro i hi; simp at hi
  | cons hr hrest ih =>
    intro i hi
    rcases List.mem_cons.mp hi with heq | hi
    · subst heq
      exact ⟨_, by simp, hr⟩
    · obtain ⟨ch, hch, hR⟩ := ih i hi
      exact ⟨ch, List.mem_cons_of_mem _ hch, hR⟩

theorem joinItos_ok_singleton {itos : List (Int × String)} {cs : List Char}
    {ids : List Int}
    (h : List.Forall₂ (fun ch i => dget? itos i = some (String.singleton ch))
      cs ids) :
    joinItos itos ids = .ok (String.mk cs) := by
  induction h with
  | nil => rfl
  | @cons ch i cs ids hr hrest ih =>
    have hstr : String.singleton ch ++ String.mk cs = String.mk (ch :: cs) := by
      apply String.ext
      rw [String.data_append]
      rfl
    rw [joinItos, hr, ih]
    dsimp only
    rw [hstr]

theorem joinItos_first_missing {itos : List (Int × String)} :
    ∀ {ids : List Int}, (∃ i ∈ ids, dget? itos i = none) →
      ∃ j ∈ ids, dget? itos j = none ∧
        joinItos itos ids = .error (.keyErrorInt j) := by
  intro ids
  induction ids with
  | nil => simp
  | cons i rest ih =>
    intro hex
    cases hg : dget? itos i with
    | none => exact ⟨i, by simp, hg, by rw [joinItos, hg]⟩
    | some s =>
      have hex2 : ∃ j ∈ rest, dget? itos j = none := by
        obtain ⟨j, hj, hnone⟩ := hex
        rcases List.mem_cons.mp hj with heq | hj
        · subst heq
          rw [hg] at hnone
          exact Option.noConfusion hnone
        · exact ⟨j, hj, hnone⟩
      obtain ⟨j, hj, hnone, herr⟩ := ih hex2
      refine ⟨j, List.mem_cons_of_mem _ hj, hnone, ?_⟩
      rw [joinItos, hg, herr]

/-! ## Reductions for fitted instances, and concrete fixtures -/

theorem encode_of_fitted {t : CharTokenizer} (hfit : t.is_fitted = true)
    (text : String) (strict : Bool) :
    t.encode text strict =
      (if strict then encodeStrict t.stoi text.data
       else
         match t.unk_id with
         | none => encodeStrict t.stoi text.data
         | some u =>
           .ok (text.data.map
             (fun ch => (dget? t.stoi (String.singleton ch)).getD u))) := by
  unfold CharTokenizer.encode
  rw [hfit]
  rfl

theorem decode_of_fitted {t : CharTokenizer} (hfit : t.is_fitted = true)
    (ids : List Int) (skip : Bool) :
    t.decode ids skip =
      (match skip, t.pad_id, t.unk_id with
       | true, some p, some u =>
         joinItos t.itos (ids.filter (fun i => !(i == p) && !(i == u)))
       | _, _, _ => joinItos t.itos ids) := by
  unfold CharTokenizer.decode
  rw [hfit]
  rfl

theorem save_of_fitted {t : CharTokenizer} (hfit : t.is_fitted = true) :
    t.save = .ok [("version", .str "char-tokenizer.v1"),
      ("stoi", .obj (t.stoi.map (fun p => (p.1, JVal.int p.2)))),
      ("pad_id", optJ t.pad_id), ("unk_id", optJ t.unk_id)] := by
  unfold CharTokenizer.save
  rw [hfit]
  rfl

theorem forall₂_strengthen {stoi : List (String × Int)} {u : Option Int}
    {cs : List Char} {ids : List Int}
    (hin : ∀ ch ∈ cs, (dget? stoi (String.singleton ch)).isSome = true)
    (h : List.Forall₂ (fun ch i =>
      dget? stoi (String.singleton ch) = some i ∨
        (dget? stoi (String.singleton ch) = none ∧ u = some i)) cs ids) :
    List.Forall₂ (fun ch i => dget? stoi (String.singleton ch) = some i)
      cs ids := by
  induction h with
  | nil => exact List.Forall₂.nil
  | @cons ch i cs ids hr hrest ih =>
    refine List.Forall₂.cons ?_ (ih (fun c hc => hin c (List.mem_cons_of_mem _ hc)))
    rcases hr with hr | ⟨hnone, _⟩
    · exact hr
    · have := hin ch (by simp)
      rw [hnone] at this
      simp at this

/-- The result of `fit("ab", include_specials=True, min_freq=1)` on a fresh
instance (the spec's concrete scenario 2). -/
def tokAB : CharTokenizer :=
  ⟨[("<PAD>", 0), ("<UNK>", 1), ("a", 2), ("b", 3)],
   [(0, "<PAD>"), (1, "<UNK>"), (2, "a"), (3, "b")],
   some 0, some 1, 4⟩

theorem fit_ab : CharTokenizer.init.fit "ab" true 1 = .ok tokAB := by rfl

theorem fit_ok_stoi {t0 t : CharTokenizer} {corpus : String} {sp : Bool}
    {mf : Nat} (h : t0.fit corpus sp mf = .ok t) :
    t.stoi = fitStoi corpus sp mf := by
  obtain ⟨ht, _, _, _⟩ := fit_ok_parts h
  subst ht
  rfl

theorem fit_ok_pad_unk {t0 t : CharTokenizer} {corpus : String} {sp : Bool}
    {mf : Nat} (h : t0.fit corpus sp mf = .ok t) :
    t.pad_id = (if sp then some 0 else none) ∧
    t.unk_id = (if sp then some 1 else none) := by
  obtain ⟨ht, _, _, _⟩ := fit_ok_parts h
  subst ht
  exact ⟨rfl, rfl⟩

theorem fitStoi_val_nonneg {corpus : String} {sp : Bool} {mf : Nat}
    {q : String × Int} (hq : q ∈ fitStoi corpus sp mf) : 0 ≤ q.2 := by
  rw [fitStoi_eq_append] at hq
  rcases List.mem_append.mp hq with hq | hq
  · revert hq
    split
    · intro hq
      rcases List.mem_cons.mp hq with heq | hq
      · simp [heq]
      · rcases List.mem_cons.mp hq with heq | hq
        · simp [heq]
        · simp at hq
    · intro hq
      simp at hq
  · have := idsFrom_val_ge (s := q.1) (i := q.2)
      (by rw [show (q.1, q.2) = q from rfl]; exact hq)
    split at this <;> omega

theorem mem_map_snd_idsFrom_ge {base : Int} {cs : List Char} {v : Int}
    (hv : v ∈ (idsFrom base cs).map Prod.snd) : base ≤ v := by
  obtain ⟨p, hp, hpv⟩ := List.mem_map.mp hv
  have := idsFrom_val_ge (s := p.1) (i := p.2)
    (by rw [show (p.1, p.2) = p from rfl]; exact hp)
  omega

theorem fitStoi_vals_nodup (corpus : String) (sp : Bool) (mf : Nat) :
    ((fitStoi corpus sp mf).map Prod.snd).Nodup := by
  rw [fitStoi_eq_append, List.map_append]
  cases sp with
  | false => simpa using idsFrom_vals_nodup 0 _
  | true =>
    simp only [if_true, List.map_cons, List.map_nil]
    rw [List.nodup_append]
    refine ⟨by decide, idsFrom_vals_nodup 2 _, ?_⟩
    intro v hv hmem
    have h2 : (2 : Int) ≤ v := mem_map_snd_idsFrom_ge hmem
    rcases List.mem_cons.mp hv with heq | hv
    · omega
    · rcases List.mem_cons.mp hv with heq | hv
      · omega
      · simp at hv

theorem fitStoi_key_shape {corpus : String} {sp : Bool} {mf : Nat}
    {q : String × Int} (hq : q ∈ fitStoi corpus sp mf) :
    q.1.length = 1 ∨ q.1 = "<PAD>" ∨ q.1 = "<UNK>" := by
  rw [fitStoi_eq_append] at hq
  rcases List.mem_append.mp hq with hq | hq
  · revert hq
    split
    · intro hq
      rcases List.mem_cons.mp hq with heq | hq
      · rw [heq]
        exact Or.inr (Or.inl rfl)
      · rcases List.mem_cons.mp hq with heq | hq
        · rw [heq]
          exact Or.inr (Or.inr rfl)
        · simp at hq
    · intro hq
      simp at hq
  · obtain ⟨c, _, hc⟩ := mem_idsFrom (s := q.1) (i := q.2)
      (by rw [show (q.1, q.2) = q from rfl]; exact hq)
    rw [hc]
    exact Or.inl (String.length_singleton c)

theorem fitStoi_no_specials_keys {corpus : String} {mf : Nat}
    {q : String × Int} (hq : q ∈ fitStoi corpus false mf) : q.1.length = 1 := by
  rw [fitStoi_eq_append] at hq
  simp only [if_neg (by decide : ¬(false = true)), List.nil_append] at hq
  obtain ⟨c, _, hc⟩ := mem_idsFrom (s := q.1) (i := q.2)
    (by rw [show (q.1, q.2) = q from rfl]; exact hq)
  rw [hc]
  exact String.length_singleton c

theorem fitStoi_pad_lookup (corpus : String) (mf : Nat) :
    dget? (fitStoi corpus true mf) "<PAD>" = some 0 := by
  rw [fitStoi_eq_append]
  show dget? ([("<PAD>", 0), ("<UNK>", 1)] ++ _) _ = _
  rw [dget?_append, dget?_cons, if_pos rfl]
  rfl

theorem fitStoi_unk_lookup (corpus : String) (mf : Nat) :
    dget? (fitStoi corpus true mf) "<UNK>" = some 1 := by
  rw [fitStoi_eq_append]
  show dget? ([("<PAD>", 0), ("<UNK>", 1)] ++ _) _ = _
  rw [dget?_append, dget?_cons, if_neg (by decide), dget?_cons, if_pos rfl]
  rfl

theorem save_payload_stoi_lookup (t : CharTokenizer) :
    dget? [("version", JVal.str "char-tokenizer.v1"),
      ("stoi", JVal.obj (t.stoi.map (fun p => (p.1, JVal.int p.2)))),
      ("pad_id", optJ t.pad_id), ("unk_id", optJ t.unk_id)] "stoi"
      = some (JVal.obj (t.stoi.map (fun p => (p.1, JVal.int p.2)))) := by
  rw [dget?_cons, if_neg (by decide), dget?_cons, if_pos rfl]

theorem save_payload_pad_lookup (t : CharTokenizer) :
    dget? [("version", JVal.str "char-tokenizer.v1"),
      ("stoi", JVal.obj (t.stoi.map (fun p => (p.1, JVal.int p.2)))),
      ("pad_id", optJ t.pad_id), ("unk_id", optJ t.unk_id)] "pad_id"
      = some (optJ t.pad_id) := by
  rw [dget?_cons, if_neg (by decide), dget?_cons, if_neg (by decide),
    dget?_cons, if_pos rfl]

theorem save_payload_unk_lookup (t : CharTokenizer) :
    dget? [("version", JVal.str "char-tokenizer.v1"),
      ("stoi", JVal.obj (t.stoi.map (fun p => (p.1, JVal.int p.2)))),
      ("pad_id", optJ t.pad_id), ("unk_id", optJ t.unk_id)] "unk_id"
      = some (optJ t.unk_id) := by
  rw [dget?_cons, if_neg (by decide), dget?_cons, if_neg (by decide),
    dget?_cons, if_neg (by decide), dget?_cons, if_pos rfl]

theorem convStoiGo_error_ne {fields : List (String × JVal)} :
    ∀ {acc : List (String × Int)} {e : TokError},
      convStoiGo acc fields = .error e →
      e ≠ .valueError inconsistentLoadMsg := by
  induction fields with
  | nil =>
    intro acc e hc
    rw [convStoiGo] at hc
    exact Except.noConfusion hc
  | cons p rest ih =>
    intro acc e hc
    obtain ⟨s, v⟩ := p
    rw [convStoiGo] at hc
    cases hpy : pyIntE v with
    | ok n =>
      rw [hpy] at hc
      exact ih hc
    | error e2 =>
      rw [hpy] at hc
      injection hc with hc
      subst hc
      cases v with
      | int n => simp [pyIntE] at hpy
      | bool b => simp [pyIntE] at hpy
      | null =>
        simp only [pyIntE] at hpy
        injection hpy with hpy
        rw [← hpy]
        decide
      | arr elems =>
        simp only [pyIntE] at hpy
        injection hpy with hpy
        rw [← hpy]
        decide
      | obj fs =>
        simp only [pyIntE] at hpy
        injection hpy with hpy
        rw [← hpy]
        decide
      | str s2 =>
        simp only [pyIntE] at hpy
        cases hto : s2.toInt? with
        | some n =>
          rw [hto] at hpy
          exact Except.noConfusion hpy
        | none =>
          rw [hto] at hpy
          injection hpy with hpy
          rw [← hpy]
          decide

/-! ## The claims -/

/-- C1 (the intended behavior the source's lines 93-163 encode): for any
fitted well-formed instance, the payload `save` constructs, fed back through
`from_file`, reconstructs exactly the same state — the restored instance *is*
`t`, so its `stoi` (hence `char_to_id`), `pad_id`, `unk_id` and `vocab_size`
are identical and its `encode`/`decode` agree with the original on every
input.  The shipped module, however, never imports `tempfile` or `json`, so
every actual `save`/`load` call dies with `NameError` before reaching this
logic (the claim's code-bug). -/
theorem claim_C1 (t : CharTokenizer) (hwf : WF t) (hfit : t.is_fitted = true) :
    ∃ payload, t.save = .ok payload ∧
      CharTokenizer.from_file payload = some (t, none) := by
  obtain ⟨hn, hitos, hvs, hchk⟩ := hwf
  refine ⟨_, save_of_fitted hfit, ?_⟩
  unfold CharTokenizer.from_file CharTokenizer.load
  rw [save_payload_stoi_lookup, save_payload_pad_lookup,
    save_payload_unk_lookup]
  dsimp only
  rw [show convStoi (t.stoi.map (fun p => (p.1, JVal.int p.2))) = .ok t.stoi
    from convStoi_map_int hn]
  dsimp only
  rw [loadPad_optJ, loadPad_optJ]
  dsimp only
  rw [← hitos, hchk]
  rw [if_neg (by decide : ¬(false = true))]
  rw [← hvs]

theorem claim_C1_witness :
    WF tokAB ∧ tokAB.is_fitted = true ∧
    ∃ payload, tokAB.save = .ok payload ∧
      CharTokenizer.from_file payload = some (tokAB, none) :=
  ⟨by decide, by rfl, claim_C1 tokAB (by decide) (by rfl)⟩

/-- C2 counterexample: the claim fails on the code at
`fit("ab", include_specials=True)` — the serialized `stoi` contains the key
`<PAD>` (and `<UNK>`), a 5-character marker string, not a single
character. -/
theorem claim_C2_cex :
    CharTokenizer.init.fit "ab" true 1 = .ok tokAB ∧
    tokAB.save = .ok [("version", .str "char-tokenizer.v1"),
      ("stoi", .obj [("<PAD>", .int 0), ("<UNK>", .int 1),
        ("a", .int 2), ("b", .int 3)]),
      ("pad_id", .int 0), ("unk_id", .int 1)] ∧
    ("<PAD>" : String).length ≠ 1 :=
  ⟨by rfl, by rfl, by decide⟩

/-- C2 (amended): in the serialized state of a fitted tokenizer, every value
of the `stoi` field is a unique non-negative integer; every key is a
single-character string *except* the special markers `<PAD>` and `<UNK>`,
which are present exactly when the tokenizer was fitted with specials — so
the all-keys-single-character property holds when `include_specials` was
false, not when it was true. -/
theorem claim_C2_amended (t0 t : CharTokenizer) (corpus : String) (sp : Bool)
    (mf : Nat) (payload : List (String × JVal))
    (hf : t0.fit corpus sp mf = .ok t) (hs : t.save = .ok payload) :
    ∃ fields : List (String × JVal),
      dget? payload "stoi" = some (.obj fields) ∧
      (∀ p ∈ fields, ∃ n : Int, p.2 = JVal.int n ∧ 0 ≤ n) ∧
      (fields.map Prod.snd).Nodup ∧
      (∀ p ∈ fields, p.1.length = 1 ∨ p.1 = "<PAD>" ∨ p.1 = "<UNK>") ∧
      (sp = false → ∀ p ∈ fields, p.1.length = 1) := by
  have hsave := save_of_fitted (fit_ok_fitted hf)
  rw [hs] at hsave
  injection hsave with hsave
  subst hsave
  refine ⟨t.stoi.map (fun p => (p.1, JVal.int p.2)),
    save_payload_stoi_lookup t, ?_, ?_, ?_, ?_⟩
  · intro p hp
    obtain ⟨q, hq, rfl⟩ := List.mem_map.mp hp
    refine ⟨q.2, rfl, ?_⟩
    rw [fit_ok_stoi hf] at hq
    exact fitStoi_val_nonneg hq
  · have : (t.stoi.map (fun p => (p.1, JVal.int p.2))).map Prod.snd =
        (t.stoi.map Prod.snd).map JVal.int := by
      rw [List.map_map, List.map_map]
      rfl
    rw [this]
    refine List.Nodup.map (fun a b hab => JVal.int.inj hab) ?_
    · rw [fit_ok_stoi hf]
      exact fitStoi_vals_nodup corpus sp mf
  · intro p hp
    obtain ⟨q, hq, rfl⟩ := List.mem_map.mp hp
    rw [fit_ok_stoi hf] at hq
    exact fitStoi_key_shape hq
  · intro hsp p hp
    subst hsp
    obtain ⟨q, hq, rfl⟩ := List.mem_map.mp hp
    rw [fit_ok_stoi hf] at hq
    exact fitStoi_no_specials_keys hq

theorem claim_C2_amended_witness :
    ∃ fields : List (String × JVal),
      dget? [("version", JVal.str "char-tokenizer.v1"),
        ("stoi", JVal.obj (tokAB.stoi.map (fun p => (p.1, JVal.int p.2)))),
        ("pad_id", optJ tokAB.pad_id), ("unk_id", optJ tokAB.unk_id)] "stoi"
        = some (.obj fields) ∧
      (∀ p ∈ fields, ∃ n : Int, p.2 = JVal.int n ∧ 0 ≤ n) ∧
      (fields.map Prod.snd).Nodup ∧
      (∀ p ∈ fields, p.1.length = 1 ∨ p.1 = "<PAD>" ∨ p.1 = "<UNK>") ∧
      (true = false → ∀ p ∈ fields, p.1.length = 1) :=
  claim_C2_amended CharTokenizer.init tokAB "ab" true 1 _ (by rfl) (by rfl)

/-- C3 counterexample: `load` is not all-or-nothing.  From the fitted state
produced by `fit("ab", True)`, loading a structurally valid file whose `stoi`
maps both "a" and "b" to 0 fails the inversion check — but only after the
instance was overwritten: afterwards the state is the newly loaded,
inconsistent one, not the prior state. -/
theorem claim_C3_cex :
    CharTokenizer.init.fit "ab" true 1 = .ok tokAB ∧
    tokAB.load [("version", .str "char-tokenizer.v1"),
      ("stoi", .obj [("a", .int 0), ("b", .int 0)]),
      ("pad_id", .null), ("unk_id", .null)] =
      some (⟨[("a", 0), ("b", 0)], [(0, "b")], none, none, 2⟩,
        some (.valueError inconsistentLoadMsg)) ∧
    (⟨[("a", 0), ("b", 0)], [(0, "b")], none, none, 2⟩ : CharTokenizer) ≠
      tokAB :=
  ⟨by rfl, by rfl, by decide⟩

/-- C3 (amended): a failing `load` leaves the prior state untouched in every
failure mode *except* the inversion-consistency check: structural validation
and the `int` conversions run before any field is assigned, so those failures
preserve the instance, but the inversion check of line 153 runs after the
assignment, so that failure leaves the instance holding the newly loaded
(inconsistent) state. -/
theorem claim_C3_amended (t : CharTokenizer) (data : List (String × JVal))
    (t' : CharTokenizer) (e : TokError)
    (h : t.load data = some (t', some e)) :
    (e ≠ .valueError inconsistentLoadMsg → t' = t) ∧
    (e = .valueError inconsistentLoadMsg →
      t'.itos = invert t'.stoi ∧ t'.vocab_size = t'.stoi.length ∧
      invCheckFails t'.stoi t'.itos = true) := by
  unfold CharTokenizer.load at h
  split at h
  case h_2 =>
    injection h with h
    injection h with h1 h2
    injection h2 with h2
    constructor
    · intro _
      exact h1.symm
    · intro he
      rw [← h2] at he
      exact absurd he (by decide)
  case h_1 fields heq =>
    split at h
    case h_2 =>
      injection h with h
      injection h with h1 h2
      injection h2 with h2
      constructor
      · intro _
        exact h1.symm
      · intro he
        rw [← h2] at he
        exact absurd he (by decide)
    case h_1 pv uv hpv huv =>
      split at h
      case h_1 e2 hconv =>
        injection h with h
        injection h with h1 h2
        injection h2 with h2
        constructor
        · intro _
          exact h1.symm
        · intro he
          rw [← h2] at he
          exact absurd he (convStoiGo_error_ne hconv)
      case h_2 newStoi hconv =>
        split at h
        case h_2 => exact Option.noConfusion h
        case h_1 pad unk hpad hunk =>
          dsimp only at h
          split at h
          · rename_i hchk
            injection h with h
            injection h with h1 h2
            injection h2 with h2
            constructor
            · intro hne
              exact absurd h2.symm hne
            · intro _
              rw [← h1]
              exact ⟨rfl, rfl, by simpa using hchk⟩
          · injection h with h
            injection h with h1 h2
            exact Option.noConfusion h2

theorem claim_C3_amended_witness :
    tokAB.load [] = some (tokAB, some (.valueError badStoiMsg)) ∧
    tokAB = tokAB :=
  ⟨by rfl,
   (claim_C3_amended tokAB [] tokAB (.valueError badStoiMsg) (by rfl)).1
     (by decide)⟩

/-- C4: `fit` assigns ids in a fixed deterministic order: the surviving
characters are a sorted permutation of the filtered counts — descending
frequency, ties by ascending code point — `<PAD>` gets id 0 and `<UNK>` id 1
when specials are requested, and the sorted characters get consecutive ids
from 2 (from 0 without specials).  The witness instantiates the
`fit("ab", include_specials=True)` example: pad 0, unk 1, a 2, b 3. -/
theorem claim_C4 (t0 t : CharTokenizer) (corpus : String) (sp : Bool)
    (mf : Nat) (h : t0.fit corpus sp mf = .ok t) :
    (sortItems (fitItems corpus mf)).Perm (fitItems corpus mf) ∧
    (sortItems (fitItems corpus mf)).Pairwise
      (fun a b => b.2 < a.2 ∨ (a.2 = b.2 ∧ a.1 < b.1)) ∧
    t.stoi = (if sp then [("<PAD>", 0), ("<UNK>", 1)] else []) ++
      idsFrom (if sp then 2 else 0)
        ((sortItems (fitItems corpus mf)).map Prod.fst) ∧
    t.pad_id = (if sp then some 0 else none) ∧
    t.unk_id = (if sp then some 1 else none) := by
  obtain ⟨ht, _, _, _⟩ := fit_ok_parts h
  subst ht
  exact ⟨sortItems_perm _,
    sortItems_pairwise_strict
      (filter_keys_nodup (counterItems_keys_nodup corpus.data)),
    fitStoi_eq_append corpus sp mf, rfl, rfl⟩

theorem claim_C4_witness :
    (sortItems (fitItems "ab" 1)).Perm (fitItems "ab" 1) ∧
    (sortItems (fitItems "ab" 1)).Pairwise
      (fun a b => b.2 < a.2 ∨ (a.2 = b.2 ∧ a.1 < b.1)) ∧
    tokAB.stoi = (if true then [("<PAD>", 0), ("<UNK>", 1)] else []) ++
      idsFrom (if true then 2 else 0)
        ((sortItems (fitItems "ab" 1)).map Prod.fst) ∧
    tokAB.pad_id = (if true then some 0 else none) ∧
    tokAB.unk_id = (if true then some 1 else none) :=
  claim_C4 CharTokenizer.init tokAB "ab" true 1 (by rfl)

/-- C5: after every successful `fit` or `load`, `stoi` and `itos` are exact
inverses of each other, and `vocab_size` equals the entry count of both. -/
theorem claim_C5 (t0 t : CharTokenizer) (corpus : String) (sp : Bool)
    (mf : Nat) (data : List (String × JVal))
    (h : t0.fit corpus sp mf = .ok t ∨ t0.load data = some (t, none)) :
    (∀ s i, dget? t.stoi s = some i → dget? t.itos i = some s) ∧
    (∀ i s, dget? t.itos i = some s → dget? t.stoi s = some i) ∧
    t.vocab_size = t.stoi.length ∧ t.stoi.length = t.itos.length := by
  have hwf : WF t := h.elim fit_ok_WF load_ok_WF
  obtain ⟨h1, h2, hswap⟩ := WF_inverse hwf
  refine ⟨h1, h2, hwf.2.2.1, ?_⟩
  rw [hswap, List.length_map]

theorem claim_C5_witness :
    (∀ s i, dget? tokAB.stoi s = some i → dget? tokAB.itos i = some s) ∧
    (∀ i s, dget? tokAB.itos i = some s → dget? tokAB.stoi s = some i) ∧
    tokAB.vocab_size = tokAB.stoi.length ∧
    tokAB.stoi.length = tokAB.itos.length :=
  claim_C5 CharTokenizer.init tokAB "ab" true 1 [] (Or.inl (by rfl))

theorem encodeStrict_first_missing {stoi : List (String × Int)} :
    ∀ {cs : List Char},
      (∃ ch ∈ cs, dget? stoi (String.singleton ch) = none) →
      ∃ ch ∈ cs, dget? stoi (String.singleton ch) = none ∧
        encodeStrict stoi cs = .error (.keyErrorStr (String.singleton ch)) := by
  intro cs
  induction cs with
  | nil => simp
  | cons c rest ih =>
    intro hex
    cases hg : dget? stoi (String.singleton c) with
    | none => exact ⟨c, by simp, hg, by rw [encodeStrict, hg]⟩
    | some i =>
      have hex2 : ∃ ch ∈ rest, dget? stoi (String.singleton ch) = none := by
        obtain ⟨ch, hch, hn⟩ := hex
        rcases List.mem_cons.mp hch with heq | hch
        · subst heq
          rw [hg] at hn
          exact Option.noConfusion hn
        · exact ⟨ch, hch, hn⟩
      obtain ⟨ch, hch, hn, herr⟩ := ih hex2
      refine ⟨ch, List.mem_cons_of_mem _ hch, hn, ?_⟩
      rw [encodeStrict, hg, herr]

/-- The result of `fit("ab", include_specials=False, min_freq=1)` on a fresh
instance. -/
def tokABns : CharTokenizer :=
  ⟨[("a", 0), ("b", 1)], [(0, "a"), (1, "b")], none, none, 2⟩

theorem fit_ab_ns : CharTokenizer.init.fit "ab" false 1 = .ok tokABns := by
  rfl

/-- C7: a successful `encode` yields exactly one id per input character, in
order (the `Forall₂` ties position `k` of the text to position `k` of the
ids: the character's own id, or — only when the character is absent and an
unknown id is configured — that unknown id), with the output length equal to
the text length; with no unknown id configured, non-strict `encode` is the
very same computation as strict `encode`, and on a fitted instance it then
fails with `KeyError` on an out-of-vocabulary character rather than
substituting anything. -/
theorem claim_C7 (t : CharTokenizer) (text : String) :
    (∀ (strict : Bool) (ids : List Int), t.encode text strict = .ok ids →
      ids.length = text.length ∧
      List.Forall₂ (fun ch i =>
        dget? t.stoi (String.singleton ch) = some i ∨
          (dget? t.stoi (String.singleton ch) = none ∧ t.unk_id = some i))
        text.data ids) ∧
    (t.unk_id = none → t.encode text false = t.encode text true) ∧
    (∀ strict : Bool, t.is_fitted = true → t.unk_id = none →
      (∃ ch ∈ text.data, dget? t.stoi (String.singleton ch) = none) →
      ∃ ch ∈ text.data, dget? t.stoi (String.singleton ch) = none ∧
        t.encode text strict =
          .error (.keyErrorStr (String.singleton ch))) := by
  refine ⟨?_, ?_, ?_⟩
  · intro strict ids h
    have hF := encode_ok_forall₂ h
    exact ⟨(hF.length_eq).symm, hF⟩
  · intro hu
    unfold CharTokenizer.encode
    rw [hu]
    cases hf : t.is_fitted <;> simp
  · intro strict hf hu hex
    rw [encode_of_fitted hf, hu]
    obtain ⟨ch, hch, hn, herr⟩ := encodeStrict_first_missing hex
    cases strict with
    | true => exact ⟨ch, hch, hn, herr⟩
    | false => exact ⟨ch, hch, hn, herr⟩

theorem claim_C7_witness :
    ([(2 : Int), 1, 3].length = ("axb" : String).length ∧
      List.Forall₂ (fun ch i =>
        dget? tokAB.stoi (String.singleton ch) = some i ∨
          (dget? tokAB.stoi (String.singleton ch) = none ∧
            tokAB.unk_id = some i))
        ("axb" : String).data [2, 1, 3]) ∧
    (∃ ch ∈ ("axb" : String).data,
      dget? tokABns.stoi (String.singleton ch) = none ∧
        tokABns.encode "axb" false =
          .error (.keyErrorStr (String.singleton ch))) :=
  ⟨(claim_C7 tokAB "axb").1 false [2, 1, 3] (by rfl),
   (claim_C7 tokABns "axb").2.2 false (by rfl) (by rfl)
     ⟨'x', by decide, by rfl⟩⟩

/-- C6: for a tokenizer produced by `fit` and any text whose characters are
all in the vocabulary, `decode (encode text) = text` — in every mode
combination: the encoded ids are the characters' own ids (at least 2 when
specials exist), so no special id occurs in the sequence and `skip_specials`
has no effect. -/
theorem claim_C6 (t0 t : CharTokenizer) (corpus : String) (sp : Bool)
    (mf : Nat) (h : t0.fit corpus sp mf = .ok t) (text : String)
    (hin : ∀ ch ∈ text.data,
      (dget? t.stoi (String.singleton ch)).isSome = true)
    (strict skip : Bool) :
    ∃ ids, t.encode text strict = .ok ids ∧ t.decode ids skip = .ok text := by
  have hfit := fit_ok_fitted h
  have hwf := fit_ok_WF h
  obtain ⟨ids, hids⟩ : ∃ ids, t.encode text strict = .ok ids := by
    rw [encode_of_fitted hfit]
    cases strict with
    | true => exact encodeStrict_ok_of_mem hin
    | false =>
      cases hu : t.unk_id with
      | none => exact encodeStrict_ok_of_mem hin
      | some u => exact ⟨_, rfl⟩
  refine ⟨ids, hids, ?_⟩
  have hF := forall₂_strengthen hin (encode_ok_forall₂ hids)
  have hF2 : List.Forall₂
      (fun ch i => dget? t.itos i = some (String.singleton ch))
      text.data ids :=
    hF.imp (fun _ _ hx => (WF_inverse hwf).1 _ _ hx)
  have hjoin : joinItos t.itos ids = .ok text := joinItos_ok_singleton hF2
  rw [decode_of_fitted hfit]
  obtain ⟨hpad, hunk⟩ := fit_ok_pad_unk h
  cases sp with
  | false =>
    have hpad2 : t.pad_id = none := hpad
    have hunk2 : t.unk_id = none := hunk
    rw [hpad2, hunk2]
    cases skip <;> exact hjoin
  | true =>
    have hpad2 : t.pad_id = some 0 := hpad
    have hunk2 : t.unk_id = some 1 := hunk
    rw [hpad2, hunk2]
    cases skip with
    | false => exact hjoin
    | true =>
      show joinItos t.itos
        (ids.filter (fun i => !(i == (0 : Int)) && !(i == 1))) = .ok text
      have hfilter :
          ids.filter (fun i => !(i == (0 : Int)) && !(i == 1)) = ids := by
        refine List.filter_eq_self.mpr ?_
        intro i hi
        obtain ⟨ch, _, hrel⟩ := forall₂_mem_right hF i hi
        rw [fit_ok_stoi h] at hrel
        have hge := fitStoi_singleton_ge hrel
        have hge2 : (2 : Int) ≤ i := hge
        simp only [Bool.and_eq_true, Bool.not_eq_true']
        constructor <;> (rw [beq_eq_false_iff_ne]; omega)
      rw [hfilter]
      exact hjoin

theorem claim_C6_witness :
    ∃ ids, tokAB.encode "ab" false = .ok ids ∧
      tokAB.decode ids true = .ok "ab" :=
  claim_C6 CharTokenizer.init tokAB "ab" true 1 (by rfl) "ab" (by decide)
    false true

/-- C8 counterexample: `decode`'s failure on an unknown id is Python's
`KeyError(id)`, which identifies the offending id but not its position — the
error value is identical whether 999999 sits at position 0 or at position 1
of the input, so the error cannot identify the position, refuting the
claim's "identifying the offending id and its position". -/
theorem claim_C8_cex :
    CharTokenizer.init.fit "ab" true 1 = .ok tokAB ∧
    tokAB.decode [999999] true = .error (.keyErrorInt 999999) ∧
    tokAB.decode [2, 999999] true = .error (.keyErrorInt 999999) :=
  ⟨by rfl, by rfl, by rfl⟩

/-- C8 (amended): for a tokenizer produced by `fit` and any id sequence
containing an id absent from `itos`, `decode` fails with a `KeyError`
carrying an offending id (the first one reached; the position is not part of
the error) — never silently ignored and never replaced by a substitution. -/
theorem claim_C8_amended (t0 t : CharTokenizer) (corpus : String) (sp : Bool)
    (mf : Nat) (h : t0.fit corpus sp mf = .ok t) (ids : List Int)
    (skip : Bool) (hbad : ∃ i ∈ ids, dget? t.itos i = none) :
    ∃ j ∈ ids, dget? t.itos j = none ∧
      t.decode ids skip = .error (.keyErrorInt j) := by
  have hfit := fit_ok_fitted h
  have hwf := fit_ok_WF h
  rw [decode_of_fitted hfit]
  obtain ⟨hpad, hunk⟩ := fit_ok_pad_unk h
  cases sp with
  | false =>
    have hpad2 : t.pad_id = none := hpad
    rw [hpad2]
    cases skip <;>
      (obtain ⟨j, hj, hn, he⟩ := joinItos_first_missing hbad
       exact ⟨j, hj, hn, he⟩)
  | true =>
    have hpad2 : t.pad_id = some 0 := hpad
    have hunk2 : t.unk_id = some 1 := hunk
    rw [hpad2, hunk2]
    cases skip with
    | false =>
      obtain ⟨j, hj, hn, he⟩ := joinItos_first_missing hbad
      exact ⟨j, hj, hn, he⟩
    | true =>
      have h0 : dget? t.itos 0 = some "<PAD>" :=
        (WF_inverse hwf).1 "<PAD>" 0
          (by rw [fit_ok_stoi h]; exact fitStoi_pad_lookup corpus mf)
      have h1 : dget? t.itos 1 = some "<UNK>" :=
        (WF_inverse hwf).1 "<UNK>" 1
          (by rw [fit_ok_stoi h]; exact fitStoi_unk_lookup corpus mf)
      have hbad2 : ∃ i ∈ ids.filter (fun i => !(i == (0 : Int)) && !(i == 1)),
          dget? t.itos i = none := by
        obtain ⟨i, hi, hn⟩ := hbad
        refine ⟨i, List.mem_filter.mpr ⟨hi, ?_⟩, hn⟩
        have hi0 : i ≠ 0 := by
          intro hh
          rw [hh, h0] at hn
          exact Option.noConfusion hn
        have hi1 : i ≠ 1 := by
          intro hh
          rw [hh, h1] at hn
          exact Option.noConfusion hn
        simp only [Bool.and_eq_true, Bool.not_eq_true']
        constructor <;> rw [beq_eq_false_iff_ne]
        · exact hi0
        · exact hi1
      obtain ⟨j, hj, hn, he⟩ := joinItos_first_missing hbad2
      exact ⟨j, (List.mem_filter.mp hj).1, hn, he⟩

theorem claim_C8_amended_witness :
    ∃ j ∈ [(999999 : Int)], dget? tokAB.itos j = none ∧
      tokAB.decode [999999] true = .error (.keyErrorInt j) :=
  claim_C8_amended CharTokenizer.init tokAB "ab" true 1 (by rfl) [999999]
    true ⟨999999, by decide, by rfl⟩

/-- C9: when no character reaches `min_freq` (for instance on the empty
corpus), `fit` without specials fails with the empty-vocabulary `ValueError`,
while `fit` with specials succeeds with exactly the two special entries and
`vocab_size` 2 — a validly fitted instance. -/
theorem claim_C9 (corpus : String) (mf : Nat) (h : fitItems corpus mf = []) :
    CharTokenizer.init.fit corpus false mf =
      .error (.valueError emptyVocabMsg) ∧
    CharTokenizer.init.fit corpus true mf = .ok
      ⟨[("<PAD>", 0), ("<UNK>", 1)], [(0, "<PAD>"), (1, "<UNK>")],
       some 0, some 1, 2⟩ ∧
    (⟨[("<PAD>", 0), ("<UNK>", 1)], [(0, "<PAD>"), (1, "<UNK>")],
       some 0, some 1, 2⟩ : CharTokenizer).is_fitted = true := by
  have h0 : (counterItems corpus.data).filter (fun p => decide (mf ≤ p.2)) = [] := h
  refine ⟨?_, ?_, rfl⟩
  · unfold CharTokenizer.fit
    rw [h0]
    rfl
  · unfold CharTokenizer.fit
    rw [h0]
    rfl

theorem claim_C9_witness :
    fitItems "" 1 = [] ∧
    CharTokenizer.init.fit "" false 1 = .error (.valueError emptyVocabMsg) ∧
    CharTokenizer.init.fit "" true 1 = .ok
      ⟨[("<PAD>", 0), ("<UNK>", 1)], [(0, "<PAD>"), (1, "<UNK>")],
       some 0, some 1, 2⟩ :=
  ⟨by rfl, (claim_C9 "" 1 (by rfl)).1, (claim_C9 "" 1 (by rfl)).2.1⟩

/-- C10: a tokenizer fitted with specials has `pad_id = 0`, and `encode`
(strict or not) never emits id 0: corpus characters get ids from 2 up, and
out-of-vocabulary fallback uses `unk_id = 1`, so the pad id can only be
introduced by the caller. -/
theorem claim_C10 (t0 t : CharTokenizer) (corpus : String) (mf : Nat)
    (h : t0.fit corpus true mf = .ok t) :
    t.pad_id = some 0 ∧
    ∀ (text : String) (strict : Bool) (ids : List Int),
      t.encode text strict = .ok ids → (0 : Int) ∉ ids := by
  obtain ⟨ht, _, _, _⟩ := fit_ok_parts h
  subst ht
  refine ⟨rfl, ?_⟩
  intro text strict ids henc hmem
  obtain ⟨ch, _, hrel⟩ := forall₂_mem_right (encode_ok_forall₂ henc) 0 hmem
  rcases hrel with hrel | ⟨_, hunk⟩
  · have := fitStoi_singleton_ge hrel
    simp at this
  · simp at hunk

theorem claim_C10_witness :
    tokAB.pad_id = some 0 ∧ (0 : Int) ∉ [(2 : Int), 1, 3] :=
  ⟨(claim_C10 CharTokenizer.init tokAB "ab" 1 (by rfl)).1,
   (claim_C10 CharTokenizer.init tokAB "ab" 1 (by rfl)).2 "axb" false
     [2, 1, 3] (by rfl)⟩

end CharLab
